import Mathlib

/-!
Verification of the Kyoto path model
(src/sage/combinat/crystals/kyoto_path_model.py).

A path-model element is a finite list of factor-crystal elements.  The
factor crystals are consumed through a small interface (`KPModel`): pointwise
crystal operators `eMap`/`fMap`, the integer statistics `epsN i b` and
`phiN i b`, and the weight-valued statistics `Eps`/`Phi` used to glue
consecutive factors.  The parent also owns the list of factor crystals
(`crystals`, one element list per crystal in the cycle), from which the
"phi dicts" are built.

Python distinguishes three outcomes of an operator call: a normal value,
the `None` signal ("no action"), and a raised exception.  `PyRes` mirrors
this three-way split.
-/

inductive PyRes (σ : Type) where
  | val (x : σ)
  | noneRes
  | exn
  deriving DecidableEq

structure KPModel (α W : Type) where
  crystals : List (List α)
  eMap : Nat → α → Option α
  fMap : Nat → α → Option α
  epsN : Nat → α → Nat
  phiN : Nat → α → Nat
  Eps : α → W
  Phi : α → W

variable {α W : Type}

/-- Model of the Python dict comprehension `{key(b): b for b in B}` followed by
`[w]`: later entries overwrite earlier ones, so lookup returns the last element
of the list whose key equals `w`; a missing key (Python `KeyError`) is `none`. -/
def dictLookup [DecidableEq W] (elts : List α) (key : α → W) (w : W) : Option α :=
  elts.reverse.find? (fun b => key b == w)

/-- Modelled from the spec: exit height of the left-to-right signature scan.
`positions_of_unmatched_minus` lives in `tensor_product.py`, which is not under
`src/`; the spec describes it as the standard bracket-matching procedure over
the word that gives factor `b` the signs `-^(phiN i b) +^(epsN i b)`, a minus
cancelling the nearest preceding unmatched plus.  The height is the running
number of unmatched pluses. -/
def mexit (M : KPModel α W) (i : Nat) : List α → Nat → Nat
  | [], h => h
  | b :: bs, h => mexit M i bs (h - M.phiN i b + M.epsN i b)

/-- Modelled from the spec: positions (relative to the start of the list)
holding at least one unmatched minus in the left-to-right signature scan
started with `h` pending pluses.  When a factor's minuses exceed the pending
pluses the factor is recorded; in either case the new height is
`h - phiN + epsN` (truncated subtraction realizes the reset to `epsN`). -/
def mpos (M : KPModel α W) (i : Nat) : List α → Nat → List Nat
  | [], _ => []
  | b :: bs, h =>
    if h < M.phiN i b then
      0 :: (mpos M i bs (h - M.phiN i b + M.epsN i b)).map (fun j => j + 1)
    else (mpos M i bs (h - M.phiN i b + M.epsN i b)).map (fun j => j + 1)

/-- Modelled from the spec: pending-minus count of the right-to-left signature
scan, with `P` external pending minuses to the right of the list.  A factor's
pluses cancel pending minuses coming from the right; its own minuses are added. -/
def pmP (M : KPModel α W) (i : Nat) (P : Nat) : List α → Nat
  | [] => P
  | b :: bs => M.phiN i b + (pmP M i P bs - M.epsN i b)

/-- Modelled from the spec: positions holding at least one unmatched plus, for
the right-to-left signature scan with `P` external pending minuses on the
right.  A factor is recorded when its pluses exceed the pending minuses. -/
def pposP (M : KPModel α W) (i : Nat) (P : Nat) : List α → List Nat
  | [] => []
  | b :: bs =>
    if pmP M i P bs < M.epsN i b then 0 :: (pposP M i P bs).map (fun j => j + 1)
    else (pposP M i P bs).map (fun j => j + 1)

/-- Modelled from the spec: `positions_of_unmatched_minus(i)` of
`TensorProductOfRegularCrystalsElement` (not under `src/`). -/
def positionsOfUnmatchedMinus (M : KPModel α W) (i : Nat) (x : List α) : List Nat :=
  mpos M i x 0

/-- Modelled from the spec: `positions_of_unmatched_plus(i)` of
`TensorProductOfRegularCrystalsElement` (not under `src/`). -/
def positionsOfUnmatchedPlus (M : KPModel α W) (i : Nat) (x : List α) : List Nat :=
  pposP M i 0 x

/-- Total number of unmatched minus signs left by the signature scan started
with `h` pending pluses: factor `b` contributes the excess of its minuses over
the pending pluses.  This is the termination measure of the `phi` loop. -/
def minusExcess (M : KPModel α W) (i : Nat) : List α → Nat → Nat
  | [], _ => 0
  | b :: bs, h =>
    (M.phiN i b - h) + minusExcess M i bs (h - M.phiN i b + M.epsN i b)

/-- Model of `KyotoPathModel.Element.e` (kyoto_path_model.py lines 305-331).
The two `return None` branches give `noneRes`; list accesses that would fail
and a pointwise raise that returns Python `None` (making the subsequent
`.Epsilon()` access or the stored sequence invalid) give `exn`. -/
def eOp (M : KPModel α W) [DecidableEq W] (i : Nat) (x : List α) : PyRes (List α) :=
  match (positionsOfUnmatchedPlus M i x).head? with
  | none => .noneRes
  | some k =>
    if k = x.length - 1 then .noneRes
    else
      match x[k]? with
      | none => .exn
      | some bk =>
        match M.eMap i bk with
        | none => .exn
        | some c =>
          if k = x.length - 2 then
            match x.getLast? with
            | none => .exn
            | some last =>
              if M.Eps c = M.Phi last then .val (x.dropLast.set k c)
              else .val (x.set k c)
          else .val (x.set k c)

/-- Model of `KyotoPathModel.Element.f` (kyoto_path_model.py lines 333-359).
`positions_of_unmatched_minus` empty gives Python `None` (`noneRes`); in the
extension branch the sequence is copied, the element of
`crystals[len % num_crystals]` whose `Phi()` is the last entry's `Epsilon()`
is appended (`KeyError`, modelled `exn`, if absent), and the old last entry is
replaced by its pointwise `f_i` image. -/
def fOp (M : KPModel α W) [DecidableEq W] (i : Nat) (x : List α) : PyRes (List α) :=
  match (positionsOfUnmatchedMinus M i x).getLast? with
  | none => .noneRes
  | some k =>
    if k = x.length - 1 then
      match x.getLast? with
      | none => .exn
      | some last =>
        match dictLookup (M.crystals.getD (x.length % M.crystals.length) []) M.Phi
            (M.Eps last) with
        | none => .exn
        | some newb =>
          match M.fMap i last with
          | none => .exn
          | some c => .val (x.dropLast ++ [c, newb])
    else
      match x[k]? with
      | none => .exn
      | some bk =>
        match M.fMap i bk with
        | none => .exn
        | some c => .val (x.set k c)

/-- Model of `KyotoPathModel.Element.phi` (lines 279-303): iterate `f` and count the
steps.  The loop is modelled with explicit fuel; `some n` means the loop
terminated with answer `n` within the given fuel, `none` that it ran out of
fuel or that an `f` call raised. -/
def phiFuel (M : KPModel α W) [DecidableEq W] (i : Nat) : Nat → List α → Option Nat
  | 0, _ => none
  | fuel + 1, x =>
    match fOp M i x with
    | .noneRes => some 0
    | .exn => none
    | .val y => (phiFuel M i fuel y).map (fun c => c + 1)

/-- Input data of one perfect crystal as consumed by
`KyotoPathModel.__classcall_private__` (lines 195-208): perfectness flag,
level, and (for `crystals[0]`) the Cartan data used in the weight check —
the dual Cartan integers `ct.dual().c()[i]` and the pairing of a weight with
the `i`-th simple coroot of `RootSystem(ct).weight_space()`. -/
structure CrystalInput (W : Type) where
  isPerfect : Bool
  level : Int
  rank : Nat
  dualC : Nat → Int
  pairing : W → Nat → Int

/-- The sum `sum(ct.dual().c()[i] * weight.scalar(h) for i,h in enumerate(...))`
of line 206-207. -/
def levelSum (C0 : CrystalInput W) (weight : W) : Int :=
  ((List.range C0.rank).map (fun i => C0.dualC i * C0.pairing weight i)).sum

/-- The validation sequence of `__classcall_private__` (lines 200-208):
perfectness of every crystal, equality of all levels with `crystals[0].level()`,
and the level identity for the weight, in that order. -/
def classcallCheck (C0 : CrystalInput W) (Cs : List (CrystalInput W)) (weight : W) :
    Except String Unit :=
  if (C0 :: Cs).any (fun B => !B.isPerfect) then .error "all crystals must be perfect"
  else if Cs.any (fun B => B.level != C0.level) then .error "all crystals must have the same level"
  else if levelSum C0 weight != C0.level then .error "not a level weight"
  else .ok ()

/-- Model of `KyotoPathModel.__init__` line 230: the single module generator
`[phi_dicts[0][weight]]`; a failed lookup is a Python `KeyError` (`none`). -/
def initModuleGenerators (M : KPModel α W) [DecidableEq W] (weight : W) :
    Option (List (List α)) :=
  match dictLookup (M.crystals.getD 0 []) M.Phi weight with
  | none => none
  | some b => some [[b]]

/-- The crystal-axiom facts about one color of the consumed factor crystals
(the "regular crystal" interface of `TensorProductOfRegularCrystalsElement`):
`e_i`/`f_i` are mutually inverse where defined, defined exactly on positive
`epsilon_i`/`phi_i`, which they shift by one; equal `Epsilon()` weights have
equal `epsilon_i`, and `Phi() = Epsilon()` weight matches give
`phi_i = epsilon_i`. -/
structure RegularColor (M : KPModel α W) (i : Nat) : Prop where
  ef : ∀ b c, M.fMap i b = some c → M.eMap i c = some b
  fe : ∀ b c, M.eMap i b = some c → M.fMap i c = some b
  f_def : ∀ b, 0 < M.phiN i b → (M.fMap i b).isSome
  e_def : ∀ b, 0 < M.epsN i b → (M.eMap i b).isSome
  eps_f : ∀ b c, M.fMap i b = some c → M.epsN i c = M.epsN i b + 1
  phi_f : ∀ b c, M.fMap i b = some c → M.phiN i b = M.phiN i c + 1
  cross : ∀ b c, M.Phi b = M.Eps c → M.phiN i b = M.epsN i c

/-- The elements reachable from `x0` by finitely many applications of the
crystal operators `e`/`f`. -/
inductive Reachable (M : KPModel α W) [DecidableEq W] (x0 : List α) : List α → Prop where
  | refl : Reachable M x0 x0
  | estep {x y : List α} (i : Nat) :
      Reachable M x0 x → eOp M i x = .val y → Reachable M x0 y
  | fstep {x y : List α} (i : Nat) :
      Reachable M x0 x → fOp M i x = .val y → Reachable M x0 y

/-- Round-robin alignment: the entry at position `p` belongs to
`crystals[p % len(crystals)]`. -/
def Aligned (M : KPModel α W) (x : List α) : Prop :=
  ∀ p b, x[p]? = some b → b ∈ M.crystals.getD (p % M.crystals.length) []

/-! A concrete instantiation

The Kirillov-Reshetikhin crystal `B^{1,1}` of type `A_2^(1)` from the module
docstring examples (lines 134-140): elements `1, 2, 3` with
`f_1(1) = 2`, `f_2(2) = 3`, `f_0(3) = 1`.  Weights are recorded as the
coordinate triple of coefficients on `(Lambda_0, Lambda_1, Lambda_2)`. -/

inductive B11 where
  | b1 | b2 | b3
  deriving DecidableEq, Fintype

def a21e : Nat → B11 → Option B11
  | 0, .b1 => some .b3
  | 1, .b2 => some .b1
  | 2, .b3 => some .b2
  | _, _ => none

def a21f : Nat → B11 → Option B11
  | 0, .b3 => some .b1
  | 1, .b1 => some .b2
  | 2, .b2 => some .b3
  | _, _ => none

def a21eps : Nat → B11 → Nat
  | 0, .b1 => 1
  | 1, .b2 => 1
  | 2, .b3 => 1
  | _, _ => 0

def a21phi : Nat → B11 → Nat
  | 0, .b3 => 1
  | 1, .b1 => 1
  | 2, .b2 => 1
  | _, _ => 0

def a21Eps : B11 → Nat × Nat × Nat
  | .b1 => (1, 0, 0)
  | .b2 => (0, 1, 0)
  | .b3 => (0, 0, 1)

def a21Phi : B11 → Nat × Nat × Nat
  | .b1 => (0, 1, 0)
  | .b2 => (0, 0, 1)
  | .b3 => (1, 0, 0)

def A21 : KPModel B11 (Nat × Nat × Nat) where
  crystals := [[.b1, .b2, .b3]]
  eMap := a21e
  fMap := a21f
  epsN := a21eps
  phiN := a21phi
  Eps := a21Eps
  Phi := a21Phi

/-- A level-1 rank-1 stand-in for the construction checks: perfect, level 1,
one simple coroot, weights are plain integers paired by the identity. -/
def goodCrystal : CrystalInput Int where
  isPerfect := true
  level := 1
  rank := 1
  dualC := fun _ => 1
  pairing := fun w _ => w

def imperfectCrystal : CrystalInput Int :=
  { goodCrystal with isPerfect := false }

def levelTwoCrystal : CrystalInput Int :=
  { goodCrystal with level := 2 }

example : fOp A21 2 [B11.b3] = .noneRes := by decide
example : fOp A21 0 [B11.b3] = .val [B11.b1, B11.b2] := by decide
example :
    fOp A21 2 [B11.b2, B11.b2] = .val [B11.b2, B11.b3, B11.b1] := by decide
example :
    eOp A21 2 [B11.b2, B11.b3, B11.b1] = .val [B11.b2, B11.b2] := by decide
example : eOp A21 0 [B11.b1, B11.b2] = .val [B11.b3] := by decide
example : initModuleGenerators A21 (1, 0, 0) = some [[B11.b3]] := by decide

/-! Signature-scan lemmas -/

theorem mexit_append (M : KPModel α W) (i : Nat) (xs ys : List α) (h : Nat) :
    mexit M i (xs ++ ys) h = mexit M i ys (mexit M i xs h) := by
  induction xs generalizing h with
  | nil => rfl
  | cons b bs ih => simp [mexit, ih]

theorem mpos_append (M : KPModel α W) (i : Nat) (xs ys : List α) (h : Nat) :
    mpos M i (xs ++ ys) h =
      mpos M i xs h ++ (mpos M i ys (mexit M i xs h)).map (fun j => j + xs.length) := by
  induction xs generalizing h with
  | nil => simp [mpos, mexit]
  | cons b bs ih =>
    by_cases hc : h < M.phiN i b <;>
      simp [mpos, mexit, hc, ih, List.map_map, Function.comp_def, Nat.add_assoc,
        Nat.add_comm 1 bs.length]

theorem mpos_mem_lt (M : KPModel α W) (i : Nat) (bs : List α) (h : Nat) :
    ∀ j ∈ mpos M i bs h, j < bs.length := by
  induction bs generalizing h with
  | nil => simp [mpos]
  | cons b bs ih =>
    intro j hj
    by_cases hc : h < M.phiN i b <;> simp [mpos, hc] at hj
    · rcases hj with rfl | ⟨j', hj', rfl⟩
      · simp
      · have := ih _ j' hj'; simp; omega
    · rcases hj with ⟨j', hj', rfl⟩
      have := ih _ j' hj'; simp; omega

theorem mpos_eq_nil_iff (M : KPModel α W) (i : Nat) (bs : List α) (h : Nat) :
    mpos M i bs h = [] ↔ pmP M i 0 bs ≤ h := by
  induction bs generalizing h with
  | nil => simp [mpos, pmP]
  | cons b bs ih =>
    by_cases hc : h < M.phiN i b <;> simp [mpos, pmP, hc, ih] <;> omega

theorem mexit_le_iff (M : KPModel α W) (i : Nat) (bs : List α) (h P : Nat) :
    mexit M i bs h ≤ P ↔ h ≤ pmP M i P bs ∧ mexit M i bs 0 ≤ P := by
  induction bs generalizing h with
  | nil => simp [mexit, pmP]
  | cons b bs ih =>
    simp only [mexit, pmP, Nat.zero_sub, Nat.zero_add]
    rw [ih (h - M.phiN i b + M.epsN i b), ih (M.epsN i b)]
    omega

theorem pposP_eq_nil_iff (M : KPModel α W) (i : Nat) (P : Nat) (bs : List α) :
    pposP M i P bs = [] ↔ mexit M i bs 0 ≤ P := by
  induction bs with
  | nil => simp [pposP, mexit]
  | cons b bs ih =>
    have hE := mexit_le_iff M i bs (M.epsN i b) P
    by_cases hc : pmP M i P bs < M.epsN i b
    · simp only [pposP, if_pos hc, mexit, Nat.zero_sub, Nat.zero_add,
        List.cons_ne_nil, false_iff]
      omega
    · simp only [pposP, if_neg hc, mexit, Nat.zero_sub, Nat.zero_add,
        List.map_eq_nil_iff, ih]
      omega

theorem pmP_append (M : KPModel α W) (i : Nat) (P : Nat) (xs ys : List α) :
    pmP M i P (xs ++ ys) = pmP M i (pmP M i P ys) xs := by
  induction xs with
  | nil => rfl
  | cons b bs ih => simp [pmP, ih]

theorem pposP_append (M : KPModel α W) (i : Nat) (P : Nat) (xs ys : List α) :
    pposP M i P (xs ++ ys) =
      pposP M i (pmP M i P ys) xs ++ (pposP M i P ys).map (fun j => j + xs.length) := by
  induction xs with
  | nil => simp [pposP]
  | cons b bs ih =>
    by_cases hc : pmP M i (pmP M i P ys) bs < M.epsN i b <;>
      simp [pposP, pmP_append, hc, ih, List.map_map, Function.comp_def, Nat.add_assoc,
        Nat.add_comm 1 bs.length]

theorem pposP_mem_lt (M : KPModel α W) (i : Nat) (P : Nat) (bs : List α) :
    ∀ j ∈ pposP M i P bs, j < bs.length := by
  induction bs with
  | nil => simp [pposP]
  | cons b bs ih =>
    intro j hj
    by_cases hc : pmP M i P bs < M.epsN i b <;> simp [pposP, hc] at hj
    · rcases hj with rfl | ⟨j', hj', rfl⟩
      · simp
      · have := ih j' hj'; simp; omega
    · rcases hj with ⟨j', hj', rfl⟩
      have := ih j' hj'; simp; omega

theorem dictLookup_mem [DecidableEq W] {elts : List α} {key : α → W} {w : W} {b : α}
    (h : dictLookup elts key w = some b) : b ∈ elts := by
  have := List.mem_of_find?_eq_some h
  simpa using this

theorem dictLookup_key [DecidableEq W] {elts : List α} {key : α → W} {w : W} {b : α}
    (h : dictLookup elts key w = some b) : key b = w := by
  have := List.find?_some h
  simpa using this

theorem find?_key_eq_of_mem_inj [DecidableEq W] {key : α → W} {b : α} :
    ∀ {l : List α}, b ∈ l → (∀ a ∈ l, key a = key b → a = b) →
      l.find? (fun a => key a == key b) = some b
  | a :: as, hb, hinj => by
    by_cases ha : key a = key b
    · have : a = b := hinj a (by simp) ha
      subst this
      simp [List.find?_cons, ha]
    · have hb' : b ∈ as := by
        rcases hb with _ | h
        · exact absurd rfl ha
        · assumption
      have : as.find? (fun a => key a == key b) = some b :=
        find?_key_eq_of_mem_inj hb' (fun a hA hk => hinj a (by simp [hA]) hk)
      simp [List.find?_cons, ha, this]

theorem dictLookup_eq_some_of_inj [DecidableEq W] {elts : List α} {key : α → W} {b : α}
    (hb : b ∈ elts) (hinj : ∀ a ∈ elts, key a = key b → a = b) :
    dictLookup elts key (key b) = some b :=
  find?_key_eq_of_mem_inj (by simpa using hb) (fun a hA hk => hinj a (by simpa using hA) hk)

theorem getLast?_map (f : α → W) (l : List α) : (l.map f).getLast? = l.getLast?.map f := by
  rw [List.getLast?_eq_getElem?, List.getLast?_eq_getElem?, List.getElem?_map,
    List.length_map]

theorem head?_map (f : α → W) (l : List α) : (l.map f).head? = l.head?.map f := by
  cases l <;> simp

/-- Decomposition of the list at the last recorded unmatched-minus position:
the prefix scan enters position `k` with fewer pending pluses than `bk` has
minuses, and the suffix scan (entered with `bk`'s pluses pending) records
nothing. -/
theorem minus_last_decomp (M : KPModel α W) (i : Nat) (x : List α) (k : Nat)
    (hk : (mpos M i x 0).getLast? = some k) :
    ∃ bk, x[k]? = some bk ∧
      mexit M i (x.take k) 0 < M.phiN i bk ∧
      mpos M i (x.drop (k + 1)) (M.epsN i bk) = [] ∧
      mpos M i x 0 = mpos M i (x.take k) 0 ++ [k] := by
  have hmem : k ∈ mpos M i x 0 := List.mem_of_getLast?_eq_some hk
  have hklt : k < x.length := mpos_mem_lt M i x 0 k hmem
  have hdecomp : x = x.take k ++ x[k] :: x.drop (k + 1) := by
    conv_lhs => rw [← List.take_append_drop k x]
    rw [List.drop_eq_getElem_cons hklt]
  have hlen : (x.take k).length = k := by
    simp [List.length_take, Nat.min_eq_left (Nat.le_of_lt hklt)]
  refine ⟨x[k], List.getElem?_eq_getElem hklt, ?_⟩
  set pre := x.take k with hpre
  set suf := x.drop (k + 1) with hsuf
  set H := mexit M i pre 0 with hH
  have hsplit : mpos M i x 0 =
      mpos M i pre 0 ++ (mpos M i (x[k] :: suf) H).map (fun j => j + k) := by
    conv_lhs => rw [hdecomp]
    rw [mpos_append, hlen]
  -- the second part is nonempty
  have hne : mpos M i (x[k] :: suf) H ≠ [] := by
    intro hnil
    rw [hsplit, hnil] at hk
    simp only [List.map_nil, List.append_nil] at hk
    have : k ∈ mpos M i pre 0 := List.mem_of_getLast?_eq_some hk
    have := mpos_mem_lt M i pre 0 k this
    omega
  have hlast2 : (mpos M i (x[k] :: suf) H).getLast? = some 0 := by
    rw [hsplit] at hk
    rw [List.getLast?_append_of_ne_nil _ (by simpa using hne)] at hk
    rw [getLast?_map] at hk
    rcases h0 : (mpos M i (x[k] :: suf) H).getLast? with _ | j
    · rw [h0] at hk; simp at hk
    · rw [h0] at hk
      simp at hk
      have hj : j = 0 := by omega
      rw [hj]
  -- analyze the head factor
  by_cases hcm : H < M.phiN i x[k]
  · have hrest : (mpos M i suf (H - M.phiN i x[k] + M.epsN i x[k])).map
        (fun j => j + 1) = [] := by
      rcases hR : (mpos M i suf (H - M.phiN i x[k] + M.epsN i x[k])).map
          (fun j => j + 1) with _ | ⟨r, rs⟩
      · rfl
      · exfalso
        rw [mpos, if_pos hcm, hR] at hlast2
        have : (0 : Nat) :: r :: rs ≠ [] := by simp
        have hlast3 : (r :: rs).getLast? = some 0 := by
          simpa [List.getLast?_cons_cons] using hlast2
        have hm : (0 : Nat) ∈ (mpos M i suf (H - M.phiN i x[k] + M.epsN i x[k])).map
            (fun j => j + 1) := by
          rw [hR]
          exact List.mem_of_getLast?_eq_some hlast3
        simp at hm
    have hzero : H - M.phiN i x[k] = 0 := by omega
    have hsufnil : mpos M i suf (M.epsN i x[k]) = [] := by
      have := List.map_eq_nil_iff.mp hrest
      rwa [hzero, Nat.zero_add] at this
    refine ⟨hcm, hsufnil, ?_⟩
    rw [hsplit, mpos, if_pos hcm, hzero, Nat.zero_add, hsufnil]
    simp
  · exfalso
    rw [mpos, if_neg hcm] at hlast2
    have hm : (0 : Nat) ∈ (mpos M i suf (H - M.phiN i x[k] + M.epsN i x[k])).map
        (fun j => j + 1) := List.mem_of_getLast?_eq_some hlast2
    simp at hm

/-- Decomposition of the list at the left-most recorded unmatched-plus
position: the suffix has fewer pending minuses than `bk` has pluses, and the
prefix entering height is at most `bk`'s minuses (no unmatched plus lies to
the left). -/
theorem plus_head_decomp (M : KPModel α W) (i : Nat) (x : List α) (k : Nat)
    (hk : (pposP M i 0 x).head? = some k) :
    ∃ bk, x[k]? = some bk ∧
      pmP M i 0 (x.drop (k + 1)) < M.epsN i bk ∧
      mexit M i (x.take k) 0 ≤ M.phiN i bk := by
  have hmem : k ∈ pposP M i 0 x := List.mem_of_mem_head? (by rw [hk]; simp)
  have hklt : k < x.length := pposP_mem_lt M i 0 x k hmem
  have hdecomp : x = x.take k ++ x[k] :: x.drop (k + 1) := by
    conv_lhs => rw [← List.take_append_drop k x]
    rw [List.drop_eq_getElem_cons hklt]
  have hlen : (x.take k).length = k := by
    simp [List.length_take, Nat.min_eq_left (Nat.le_of_lt hklt)]
  refine ⟨x[k], List.getElem?_eq_getElem hklt, ?_⟩
  set pre := x.take k with hpre
  set suf := x.drop (k + 1) with hsuf
  have hsplit : pposP M i 0 x =
      pposP M i (pmP M i 0 (x[k] :: suf)) pre ++
        (pposP M i 0 (x[k] :: suf)).map (fun j => j + k) := by
    conv_lhs => rw [hdecomp]
    rw [pposP_append, hlen]
  rw [hsplit] at hk
  have hprefNil : pposP M i (pmP M i 0 (x[k] :: suf)) pre = [] := by
    rcases hP : pposP M i (pmP M i 0 (x[k] :: suf)) pre with _ | ⟨p, ps⟩
    · rfl
    · exfalso
      rw [hP] at hk
      simp only [List.cons_append, List.head?_cons] at hk
      have hpk : p = k := by exact Option.some.inj hk
      have : p ∈ pposP M i (pmP M i 0 (x[k] :: suf)) pre := by rw [hP]; simp
      have := pposP_mem_lt M i _ pre p this
      omega
  rw [hprefNil, List.nil_append, head?_map] at hk
  have hhead : (pposP M i 0 (x[k] :: suf)).head? = some 0 := by
    rcases h0 : (pposP M i 0 (x[k] :: suf)).head? with _ | j
    · rw [h0] at hk; simp at hk
    · rw [h0] at hk
      simp at hk
      have hj : j = 0 := by omega
      rw [hj]
  have hcp : pmP M i 0 suf < M.epsN i x[k] := by
    by_contra hcon
    rw [pposP, if_neg hcon, head?_map] at hhead
    rcases h1 : (pposP M i 0 suf).head? with _ | j
    · rw [h1] at hhead; simp at hhead
    · rw [h1] at hhead; simp at hhead
  refine ⟨hcp, ?_⟩
  have hpm : pmP M i 0 (x[k] :: suf) = M.phiN i x[k] := by
    rw [pmP]; omega
  rw [hpm] at hprefNil
  exact (pposP_eq_nil_iff M i (M.phiN i x[k]) pre).mp hprefNil

/-- Synthesis on the minus side: if the prefix enters `c` with fewer pending
pluses than `c` has minuses and the suffix records nothing from `c`'s pluses,
then the scan of the whole list records exactly the prefix positions plus the
position of `c`. -/
theorem minus_last_synth (M : KPModel α W) (i : Nat) (pre suf : List α) (c : α)
    (h1 : mexit M i pre 0 < M.phiN i c)
    (h2 : mpos M i suf (M.epsN i c) = []) :
    mpos M i (pre ++ c :: suf) 0 = mpos M i pre 0 ++ [pre.length] := by
  rw [mpos_append]
  rw [mpos, if_pos h1]
  have hz : mexit M i pre 0 - M.phiN i c = 0 := by omega
  rw [hz, Nat.zero_add, h2]
  simp

/-- Synthesis on the plus side: if the suffix has fewer pending minuses than
`c` has pluses and the prefix entering height is at most `c`'s minuses, then
the left-most unmatched plus of the whole list is at the position of `c`. -/
theorem plus_head_synth (M : KPModel α W) (i : Nat) (pre suf : List α) (c : α)
    (h1 : pmP M i 0 suf < M.epsN i c)
    (h2 : mexit M i pre 0 ≤ M.phiN i c) :
    (pposP M i 0 (pre ++ c :: suf)).head? = some pre.length := by
  rw [pposP_append]
  have hpm : pmP M i 0 (c :: suf) = M.phiN i c := by
    rw [pmP]; omega
  have hprefNil : pposP M i (pmP M i 0 (c :: suf)) pre = [] := by
    rw [hpm]
    exact (pposP_eq_nil_iff M i (M.phiN i c) pre).mpr h2
  rw [hprefNil, List.nil_append]
  rw [pposP, if_pos h1]
  simp

/-! List helpers -/

theorem drop_append_cons_self (pre suf : List α) (c : α) :
    (pre ++ c :: suf).drop (pre.length + 1) = suf := by
  rw [← List.drop_drop, List.drop_left]
  rfl

theorem getElem?_append_cons_self (pre suf : List α) (c : α) :
    (pre ++ c :: suf)[pre.length]? = some c := by
  rw [List.getElem?_append_right (Nat.le_refl _)]
  simp

theorem set_append_cons_self (pre suf : List α) (c b : α) :
    (pre ++ c :: suf).set pre.length b = pre ++ b :: suf := by
  rw [List.set_append_right _ _ (Nat.le_refl _)]
  simp

theorem getLast?_set_of_lt {x : List α} {k : Nat} {c : α} (h : k < x.length - 1) :
    (x.set k c).getLast? = x.getLast? := by
  rw [List.getLast?_eq_getElem?, List.getLast?_eq_getElem?, List.length_set,
    List.getElem?_set_ne (by omega)]

theorem drop_length_sub_one {x : List α} {last : α} (h : x.getLast? = some last) :
    x.drop (x.length - 1) = [last] := by
  have hne : x ≠ [] := by intro h0; rw [h0] at h; simp at h
  have hpos : 1 ≤ x.length := List.length_pos.mpr hne
  have hlen : (x.drop (x.length - 1)).length = 1 := by
    rw [List.length_drop]; omega
  rcases hd : x.drop (x.length - 1) with _ | ⟨a, rest⟩
  · rw [hd] at hlen; simp at hlen
  · rw [hd] at hlen
    simp only [List.length_cons, Nat.add_left_eq_self] at hlen
    have hrest : rest = [] := List.eq_nil_of_length_eq_zero hlen
    subst hrest
    have h0 : (x.drop (x.length - 1))[0]? = x[x.length - 1 + 0]? := List.getElem?_drop x _ 0
    rw [hd, Nat.add_zero, ← List.getLast?_eq_getElem?, h] at h0
    simp only [List.getElem?_cons_zero] at h0
    rw [Option.some.inj h0.symm]

theorem decomp_of_getElem? {x : List α} {k : Nat} {bk : α} (h : x[k]? = some bk) :
    x = x.take k ++ bk :: x.drop (k + 1) := by
  have hklt : k < x.length := by
    by_contra hcon
    rw [List.getElem?_eq_none (by omega)] at h
    exact Option.noConfusion h
  have hbk : x[k] = bk := by
    have := List.getElem?_eq_getElem hklt
    rw [h] at this
    exact (Option.some.inj this).symm
  conv_lhs => rw [← List.take_append_drop k x]
  rw [List.drop_eq_getElem_cons hklt, hbk]

theorem lt_length_of_getElem? {x : List α} {k : Nat} {bk : α} (h : x[k]? = some bk) :
    k < x.length := by
  by_contra hcon
  rw [List.getElem?_eq_none (by omega)] at h
  exact Option.noConfusion h

/-! Derived crystal-axiom facts -/

theorem RegularColor.eps_e {M : KPModel α W} {i : Nat} (hreg : RegularColor M i)
    {b c : α} (h : M.eMap i b = some c) : M.epsN i b = M.epsN i c + 1 :=
  hreg.eps_f c b (hreg.fe b c h)

theorem RegularColor.phi_e {M : KPModel α W} {i : Nat} (hreg : RegularColor M i)
    {b c : α} (h : M.eMap i b = some c) : M.phiN i c = M.phiN i b + 1 :=
  hreg.phi_f c b (hreg.fe b c h)

/-! Forward computation lemmas for the operators -/

theorem eOp_val_inplace (M : KPModel α W) [DecidableEq W] {i : Nat} {x : List α}
    {k : Nat} {bk c : α}
    (hk : (positionsOfUnmatchedPlus M i x).head? = some k)
    (hne : k ≠ x.length - 1)
    (hbk : x[k]? = some bk)
    (he : M.eMap i bk = some c)
    (hnc : ∀ last, k = x.length - 2 → x.getLast? = some last → M.Eps c ≠ M.Phi last) :
    eOp M i x = .val (x.set k c) := by
  unfold eOp
  rw [hk]
  simp only [if_neg hne, hbk, he]
  by_cases h2 : k = x.length - 2
  · rw [if_pos h2]
    rcases hl : x.getLast? with _ | last
    · exfalso
      have := lt_length_of_getElem? hbk
      rw [List.getLast?_eq_none_iff] at hl
      rw [hl] at this
      simp at this
    · simp only [if_neg (hnc last h2 hl)]
  · rw [if_neg h2]

theorem eOp_val_contract (M : KPModel α W) [DecidableEq W] {i : Nat} {x : List α}
    {k : Nat} {bk c last : α}
    (hk : (positionsOfUnmatchedPlus M i x).head? = some k)
    (hne : k ≠ x.length - 1)
    (hbk : x[k]? = some bk)
    (he : M.eMap i bk = some c)
    (h2 : k = x.length - 2)
    (hlast : x.getLast? = some last)
    (hEq : M.Eps c = M.Phi last) :
    eOp M i x = .val (x.dropLast.set k c) := by
  unfold eOp
  rw [hk]
  simp only [if_neg hne, hbk, he, if_pos h2, hlast, if_pos hEq]

theorem fOp_val_ext (M : KPModel α W) [DecidableEq W] {i : Nat} {x : List α}
    {last newb c : α}
    (hk : (positionsOfUnmatchedMinus M i x).getLast? = some (x.length - 1))
    (hlast : x.getLast? = some last)
    (hdict : dictLookup (M.crystals.getD (x.length % M.crystals.length) []) M.Phi
        (M.Eps last) = some newb)
    (hf : M.fMap i last = some c) :
    fOp M i x = .val (x.dropLast ++ [c, newb]) := by
  unfold fOp
  simp only [hk, if_true, hlast, hdict, hf]

theorem fOp_val_inplace (M : KPModel α W) [DecidableEq W] {i : Nat} {x : List α}
    {k : Nat} {bk c : α}
    (hk : (positionsOfUnmatchedMinus M i x).getLast? = some k)
    (hne : k ≠ x.length - 1)
    (hbk : x[k]? = some bk)
    (hf : M.fMap i bk = some c) :
    fOp M i x = .val (x.set k c) := by
  unfold fOp
  rw [hk]
  simp only [if_neg hne, hbk, hf]

/-! Inversion lemmas for the operators -/

theorem eOp_val_inv (M : KPModel α W) [DecidableEq W] {i : Nat} {x y : List α}
    (h : eOp M i x = .val y) :
    ∃ k bk c, (positionsOfUnmatchedPlus M i x).head? = some k ∧ k ≠ x.length - 1 ∧
      x[k]? = some bk ∧ M.eMap i bk = some c ∧
      ((∃ last, x.getLast? = some last ∧ k = x.length - 2 ∧ M.Eps c = M.Phi last ∧
          y = x.dropLast.set k c) ∨
        ((∀ last, k = x.length - 2 → x.getLast? = some last → M.Eps c ≠ M.Phi last) ∧
          y = x.set k c)) := by
  unfold eOp at h
  split at h
  · exact absurd h (by simp)
  · rename_i k heq
    split at h
    · exact absurd h (by simp)
    · rename_i hne
      split at h
      · exact absurd h (by simp)
      · rename_i bk hbk
        split at h
        · exact absurd h (by simp)
        · rename_i c hc
          refine ⟨k, bk, c, heq, hne, hbk, hc, ?_⟩
          split at h
          · rename_i h2
            split at h
            · exact absurd h (by simp)
            · rename_i last hlast
              split at h
              · rename_i hEq
                exact Or.inl ⟨last, hlast, h2, hEq, (PyRes.val.inj h).symm⟩
              · rename_i hEq
                refine Or.inr ⟨?_, (PyRes.val.inj h).symm⟩
                intro last' _ hlast'
                rw [hlast] at hlast'
                rw [← Option.some.inj hlast']
                exact hEq
          · rename_i h2
            refine Or.inr ⟨?_, (PyRes.val.inj h).symm⟩
            intro last' h2' _
            exact absurd h2' h2

theorem fOp_val_inv (M : KPModel α W) [DecidableEq W] {i : Nat} {x y : List α}
    (h : fOp M i x = .val y) :
    ∃ k, (positionsOfUnmatchedMinus M i x).getLast? = some k ∧
      ((k = x.length - 1 ∧ ∃ last newb c, x.getLast? = some last ∧
          dictLookup (M.crystals.getD (x.length % M.crystals.length) []) M.Phi
            (M.Eps last) = some newb ∧
          M.fMap i last = some c ∧ y = x.dropLast ++ [c, newb]) ∨
        (k ≠ x.length - 1 ∧ ∃ bk c, x[k]? = some bk ∧ M.fMap i bk = some c ∧
          y = x.set k c)) := by
  unfold fOp at h
  split at h
  · exact absurd h (by simp)
  · rename_i k heq
    refine ⟨k, heq, ?_⟩
    split at h
    · rename_i hkl
      split at h
      · exact absurd h (by simp)
      · rename_i last hlast
        split at h
        · exact absurd h (by simp)
        · rename_i newb hnewb
          split at h
          · exact absurd h (by simp)
          · rename_i c hc
            exact Or.inl ⟨hkl, last, newb, c, hlast, hnewb, hc, (PyRes.val.inj h).symm⟩
    · rename_i hkl
      split at h
      · exact absurd h (by simp)
      · rename_i bk hbk
        split at h
        · exact absurd h (by simp)
        · rename_i c hc
          exact Or.inr ⟨hkl, bk, c, hbk, hc, (PyRes.val.inj h).symm⟩

/-! Claims -/

/-- C1 (counterexample): contrary to the claim, `f(i)` does return "no action":
at the module generator `[3]` of the type `A_2^(1)` model, `f(2)` is Python
`None` — exactly the doctest `mg.f(2)` of `KyotoPathModel.Element.f`. -/
theorem c1_counterexample : fOp A21 2 [B11.b3] = PyRes.noneRes := by decide

/-- C1 (amended): `f(i)` returns "no action" precisely when the signature rule
finds no unmatched minus at color `i` in the finite sequence; whenever it does
return a sequence, the result's length equals the input's length or exceeds it
by exactly one. -/
theorem c1_f_none_iff_and_length (M : KPModel α W) [DecidableEq W] (i : Nat) (x : List α) :
    (fOp M i x = .noneRes ↔ positionsOfUnmatchedMinus M i x = []) ∧
      ∀ y, fOp M i x = .val y → y.length = x.length ∨ y.length = x.length + 1 := by
  constructor
  · constructor
    · intro h
      unfold fOp at h
      split at h
      · rename_i heq
        exact List.getLast?_eq_none_iff.mp heq
      · exfalso
        split at h
        · split at h
          · exact absurd h (by simp)
          · split at h
            · exact absurd h (by simp)
            · split at h <;> exact absurd h (by simp)
        · split at h
          · exact absurd h (by simp)
          · split at h <;> exact absurd h (by simp)
    · intro h
      have h' : (positionsOfUnmatchedMinus M i x).getLast? = none := by rw [h]; rfl
      unfold fOp
      simp only [h']
  · intro y hy
    rcases fOp_val_inv M hy with ⟨k, hk, hcase⟩
    rcases hcase with ⟨hkl, last, newb, c, hlast, hdict, hf, hy'⟩ |
      ⟨hne, bk, c, hbk, hf, hy'⟩
    · right
      subst hy'
      have hxne : x ≠ [] := by
        intro h0; rw [h0] at hlast; simp at hlast
      have := List.length_pos.mpr hxne
      simp
      omega
    · left
      subst hy'
      simp

theorem c1_witness :
    [B11.b1, B11.b2].length = [B11.b3].length ∨
      [B11.b1, B11.b2].length = [B11.b3].length + 1 :=
  (c1_f_none_iff_and_length A21 0 [B11.b3]).2 [B11.b1, B11.b2] (by decide)

/-- C2: when the right-most unmatched minus falls on the last position, `f(i)`
extends the sequence: it appends the element of
`crystals[length % cycleLength]` whose `Phi()` equals the old last entry's
`Epsilon()` and replaces the old last entry by its pointwise `f_i` image, so
the result is exactly one entry longer. -/
theorem c2_f_extension_step (M : KPModel α W) [DecidableEq W] (i : Nat) (x : List α)
    (last newb c : α)
    (hk : (positionsOfUnmatchedMinus M i x).getLast? = some (x.length - 1))
    (hlast : x.getLast? = some last)
    (hdict : dictLookup (M.crystals.getD (x.length % M.crystals.length) []) M.Phi
        (M.Eps last) = some newb)
    (hf : M.fMap i last = some c) :
    fOp M i x = .val (x.dropLast ++ [c, newb]) ∧
      (x.dropLast ++ [c, newb]).length = x.length + 1 := by
  refine ⟨fOp_val_ext M hk hlast hdict hf, ?_⟩
  have hxne : x ≠ [] := by
    intro h0; rw [h0] at hlast; simp at hlast
  have := List.length_pos.mpr hxne
  simp
  omega

theorem c2_witness :
    fOp A21 2 [B11.b2, B11.b2] =
      .val ([B11.b2, B11.b2].dropLast ++ [B11.b3, B11.b1]) ∧
    ([B11.b2, B11.b2].dropLast ++ [B11.b3, B11.b1]).length =
      [B11.b2, B11.b2].length + 1 :=
  c2_f_extension_step A21 2 [B11.b2, B11.b2] B11.b2 B11.b1 B11.b3
    (by decide) (by decide) (by decide) (by decide)

/-- C3: in the acting cases of `e(i)` with `k` the left-most unmatched plus:
if `k` is second-to-last and `e_i(b(k)).Epsilon() = b(last).Phi()`, the last
entry is dropped and position `k` replaced, giving length exactly one less;
in every other acting case position `k` is replaced pointwise, same length. -/
theorem c3_e_contraction_step (M : KPModel α W) [DecidableEq W] (i : Nat) (x : List α)
    (k : Nat) (bk c last : α)
    (hk : (positionsOfUnmatchedPlus M i x).head? = some k)
    (hne : k ≠ x.length - 1)
    (hbk : x[k]? = some bk)
    (he : M.eMap i bk = some c)
    (hlast : x.getLast? = some last) :
    (k = x.length - 2 ∧ M.Eps c = M.Phi last →
      eOp M i x = .val (x.dropLast.set k c) ∧
        (x.dropLast.set k c).length + 1 = x.length) ∧
    (¬(k = x.length - 2 ∧ M.Eps c = M.Phi last) →
      eOp M i x = .val (x.set k c) ∧ (x.set k c).length = x.length) := by
  have hklt := lt_length_of_getElem? hbk
  constructor
  · rintro ⟨h2, hEq⟩
    refine ⟨eOp_val_contract M hk hne hbk he h2 hlast hEq, ?_⟩
    simp
    omega
  · intro hno
    refine ⟨eOp_val_inplace M hk hne hbk he ?_, by simp⟩
    intro last' h2 hlast'
    rw [hlast] at hlast'
    rw [← Option.some.inj hlast']
    intro hEq
    exact hno ⟨h2, hEq⟩

theorem c3_witness :
    eOp A21 2 [B11.b2, B11.b3, B11.b1] =
      .val ([B11.b2, B11.b3, B11.b1].dropLast.set 1 B11.b2) ∧
    ([B11.b2, B11.b3, B11.b1].dropLast.set 1 B11.b2).length + 1 =
      [B11.b2, B11.b3, B11.b1].length :=
  (c3_e_contraction_step A21 2 [B11.b2, B11.b3, B11.b1] 1 B11.b3 B11.b2 B11.b1
    (by decide) (by decide) (by decide) (by decide) (by decide)).1
    ⟨by decide, by decide⟩

/-- C4: `e(i)` returns "no action" exactly when the signature-rule search finds
no unmatched plus at color `i`, or the left-most unmatched plus sits at the
last position of the sequence. -/
theorem c4_e_none_iff (M : KPModel α W) [DecidableEq W] (i : Nat) (x : List α) :
    eOp M i x = .noneRes ↔
      positionsOfUnmatchedPlus M i x = [] ∨
        (positionsOfUnmatchedPlus M i x).head? = some (x.length - 1) := by
  constructor
  · intro h
    unfold eOp at h
    split at h
    · rename_i heq
      exact Or.inl (List.head?_eq_none_iff.mp heq)
    · rename_i k heq
      split at h
      · rename_i hkl
        right
        rw [heq, hkl]
      · exfalso
        split at h
        · exact absurd h (by simp)
        · split at h
          · exact absurd h (by simp)
          · split at h
            · split at h
              · exact absurd h (by simp)
              · split at h <;> exact absurd h (by simp)
            · exact absurd h (by simp)
  · intro h
    rcases h with h | h
    · have h' : (positionsOfUnmatchedPlus M i x).head? = none := by rw [h]; rfl
      unfold eOp
      simp only [h']
    · unfold eOp
      simp only [h, if_true]

/-- C7: on success, `__init__` produces exactly one module generator, the
length-one path whose single entry is `phi_dicts[0][weight]`. -/
theorem c7_single_module_generator (M : KPModel α W) [DecidableEq W] (weight : W)
    (gens : List (List α)) (h : initModuleGenerators M weight = some gens) :
    gens.length = 1 ∧
      ∃ b, dictLookup (M.crystals.getD 0 []) M.Phi weight = some b ∧ gens = [[b]] := by
  unfold initModuleGenerators at h
  split at h
  · exact absurd h (by simp)
  · rename_i b hb
    have hg : gens = [[b]] := (Option.some.inj h).symm
    subst hg
    exact ⟨rfl, b, hb, rfl⟩

theorem c7_witness :
    ([[B11.b3]] : List (List B11)).length = 1 ∧
      ∃ b, dictLookup (A21.crystals.getD 0 []) A21.Phi (1, 0, 0) = some b ∧
        ([[B11.b3]] : List (List B11)) = [[b]] :=
  c7_single_module_generator A21 (1, 0, 0) [[B11.b3]] (by decide)

/-- C10: when the unmatched-plus list is nonempty with first position `k` not
the last index, the pointwise raise `self[k].e(i)` is defined (the signature
rule puts an unmatched plus only at a factor with positive `epsilon_i`), so
`e(i)` never operates on a null value and never raises. -/
theorem c10_pointwise_raise_defined (M : KPModel α W) [DecidableEq W] (i : Nat)
    (x : List α) (k : Nat) (rest : List Nat)
    (hreg : ∀ b, 0 < M.epsN i b → (M.eMap i b).isSome)
    (hk : positionsOfUnmatchedPlus M i x = k :: rest)
    (hne : k ≠ x.length - 1) :
    (∃ bk c, x[k]? = some bk ∧ M.eMap i bk = some c) ∧ eOp M i x ≠ .exn := by
  have hh : (positionsOfUnmatchedPlus M i x).head? = some k := by rw [hk]; rfl
  obtain ⟨bk, hbk, hsuf, hpre⟩ := plus_head_decomp M i x k hh
  have heps : 0 < M.epsN i bk := by omega
  have he' := hreg bk heps
  rcases he : M.eMap i bk with _ | c
  · rw [he] at he'
    simp at he'
  · refine ⟨⟨bk, c, hbk, he⟩, ?_⟩
    by_cases h2 : k = x.length - 2
    · rcases hlast : x.getLast? with _ | last
      · exfalso
        rw [List.getLast?_eq_none_iff] at hlast
        rw [hlast] at hbk
        simp at hbk
      · by_cases hEq : M.Eps c = M.Phi last
        · rw [eOp_val_contract M hh hne hbk he h2 hlast hEq]
          simp
        · rw [eOp_val_inplace M hh hne hbk he ?_]
          · simp
          · intro last' _ hlast'
            rw [hlast] at hlast'
            rw [← Option.some.inj hlast']
            exact hEq
    · rw [eOp_val_inplace M hh hne hbk he (fun last' h2' _ => absurd h2' h2)]
      simp

theorem c10_witness :
    (∃ bk c, ([B11.b2, B11.b3, B11.b1])[1]? = some bk ∧ A21.eMap 2 bk = some c) ∧
      eOp A21 2 [B11.b2, B11.b3, B11.b1] ≠ .exn :=
  c10_pointwise_raise_defined A21 2 [B11.b2, B11.b3, B11.b1] 1 []
    (by decide) (by decide) (by decide)

/-- C6: construction validation fails, in order, on a non-perfect crystal, on
a level mismatch with `crystals[0]`, and on a weight failing the level-sum
identity; passing all three checks, validation does not raise. -/
theorem c6_classcall_validation (C0 : CrystalInput W) (Cs : List (CrystalInput W))
    (weight : W) :
    ((∃ B ∈ C0 :: Cs, B.isPerfect = false) →
        classcallCheck C0 Cs weight = .error "all crystals must be perfect") ∧
    ((∀ B ∈ C0 :: Cs, B.isPerfect = true) → (∃ B ∈ Cs, B.level ≠ C0.level) →
        classcallCheck C0 Cs weight = .error "all crystals must have the same level") ∧
    ((∀ B ∈ C0 :: Cs, B.isPerfect = true) → (∀ B ∈ Cs, B.level = C0.level) →
        levelSum C0 weight ≠ C0.level →
        classcallCheck C0 Cs weight = .error "not a level weight") ∧
    ((∀ B ∈ C0 :: Cs, B.isPerfect = true) → (∀ B ∈ Cs, B.level = C0.level) →
        levelSum C0 weight = C0.level →
        classcallCheck C0 Cs weight = .ok ()) := by
  unfold classcallCheck
  refine ⟨?_, ?_, ?_, ?_⟩
  · rintro ⟨B, hB, hBP⟩
    have hc : ((C0 :: Cs).any fun B => !B.isPerfect) = true := by
      rw [List.any_eq_true]
      exact ⟨B, hB, by rw [hBP]; rfl⟩
    rw [if_pos hc]
  · rintro hall ⟨B, hB, hBl⟩
    have h1 : ¬(((C0 :: Cs).any fun B => !B.isPerfect) = true) := by
      rw [List.any_eq_true]
      rintro ⟨B', hB', hBP'⟩
      rw [hall B' hB'] at hBP'
      simp at hBP'
    have h2 : (Cs.any fun B => B.level != C0.level) = true := by
      rw [List.any_eq_true]
      exact ⟨B, hB, by simpa using hBl⟩
    rw [if_neg h1, if_pos h2]
  · intro hall hlev hw
    have h1 : ¬(((C0 :: Cs).any fun B => !B.isPerfect) = true) := by
      rw [List.any_eq_true]
      rintro ⟨B', hB', hBP'⟩
      rw [hall B' hB'] at hBP'
      simp at hBP'
    have h2 : ¬((Cs.any fun B => B.level != C0.level) = true) := by
      rw [List.any_eq_true]
      rintro ⟨B', hB', hBl'⟩
      rw [bne_iff_ne] at hBl'
      exact hBl' (hlev B' hB')
    have h3 : (levelSum C0 weight != C0.level) = true := by simpa using hw
    rw [if_neg h1, if_neg h2, if_pos h3]
  · intro hall hlev hw
    have h1 : ¬(((C0 :: Cs).any fun B => !B.isPerfect) = true) := by
      rw [List.any_eq_true]
      rintro ⟨B', hB', hBP'⟩
      rw [hall B' hB'] at hBP'
      simp at hBP'
    have h2 : ¬((Cs.any fun B => B.level != C0.level) = true) := by
      rw [List.any_eq_true]
      rintro ⟨B', hB', hBl'⟩
      rw [bne_iff_ne] at hBl'
      exact hBl' (hlev B' hB')
    have h3 : ¬((levelSum C0 weight != C0.level) = true) := by simpa using hw
    rw [if_neg h1, if_neg h2, if_neg h3]

theorem c6_witness :
    classcallCheck goodCrystal [imperfectCrystal] (1 : Int) =
      .error "all crystals must be perfect" ∧
    classcallCheck goodCrystal [levelTwoCrystal] (1 : Int) =
      .error "all crystals must have the same level" ∧
    classcallCheck goodCrystal [] (0 : Int) = .error "not a level weight" ∧
    classcallCheck goodCrystal [] (1 : Int) = .ok () :=
  ⟨(c6_classcall_validation goodCrystal [imperfectCrystal] 1).1
      ⟨imperfectCrystal, by simp, by decide⟩,
    (c6_classcall_validation goodCrystal [levelTwoCrystal] 1).2.1
      (by decide) ⟨levelTwoCrystal, by simp, by decide⟩,
    (c6_classcall_validation goodCrystal [] 0).2.2.1
      (by decide) (by simp) (by decide),
    (c6_classcall_validation goodCrystal [] 1).2.2.2
      (by decide) (by simp) (by decide)⟩

/-- C5: `e(i)` and `f(i)` are mutual partial inverses: when `e(i)(x)` acts,
`f(i)` undoes it, and when `f(i)(x)` produces `y`, `e(i)(y)` recovers `x`.
The hypotheses are the standing assumptions of the model: the factor crystals
satisfy the regular-crystal axioms at color `i`, the sequence is in reduced
form (no redundant tail), and the `Phi()` lookup of the matching crystal in
the cycle inverts `Phi` (perfectness/injectivity of the lookup tables). -/
theorem c5_e_f_partial_inverses (M : KPModel α W) [DecidableEq W] (i : Nat) (x : List α)
    (hreg : RegularColor M i)
    (hred : ∀ a last, x[x.length - 2]? = some a → x.getLast? = some last →
      2 ≤ x.length → M.Eps a ≠ M.Phi last)
    (hdict : ∀ last, x.getLast? = some last →
      dictLookup (M.crystals.getD ((x.length - 1) % M.crystals.length) []) M.Phi
        (M.Phi last) = some last) :
    (∀ y, eOp M i x = .val y → fOp M i y = .val x) ∧
    (∀ y, fOp M i x = .val y → eOp M i y = .val x) := by
  constructor
  · intro y hy
    obtain ⟨k, bk, c, hk, hne, hbk, he, hcase⟩ := eOp_val_inv M hy
    obtain ⟨bk2, hbk2, hsufP, hpreP⟩ := plus_head_decomp M i x k hk
    rw [hbk] at hbk2
    obtain rfl : bk = bk2 := Option.some.inj hbk2
    have hklt : k < x.length := lt_length_of_getElem? hbk
    have hxdec := decomp_of_getElem? hbk
    set pre := x.take k with hpredef
    set suf := x.drop (k + 1) with hsufdef
    have hlenpre : pre.length = k := by
      rw [hpredef, List.length_take]
      exact Nat.min_eq_left (Nat.le_of_lt hklt)
    have hphic : M.phiN i c = M.phiN i bk + 1 := hreg.phi_e he
    have hepsc : M.epsN i bk = M.epsN i c + 1 := hreg.eps_e he
    have hfc : M.fMap i c = some bk := hreg.fe bk c he
    rcases hcase with ⟨last, hlast, h2, hEq, hyv⟩ | ⟨hnc, hyv⟩
    · -- contraction: the last entry is dropped, so f re-extends
      have hlen2 : 2 ≤ x.length := by omega
      have hsufeq : suf = [last] := by
        rw [hsufdef, show k + 1 = x.length - 1 by omega]
        exact drop_length_sub_one hlast
      have hdropx : x.dropLast = pre ++ [bk] := by
        have hx2 : x = (pre ++ [bk]) ++ [last] := by
          rw [hxdec, hsufeq]
          simp
        rw [hx2, List.dropLast_concat]
      have hydec : y = pre ++ [c] := by
        rw [hyv, hdropx, ← hlenpre]
        exact set_append_cons_self pre [] bk c
      have hylen : y.length = x.length - 1 := by
        rw [hydec, List.length_append, hlenpre]
        simp
        omega
      have hminY : (positionsOfUnmatchedMinus M i y).getLast? = some (y.length - 1) := by
        unfold positionsOfUnmatchedMinus
        rw [hydec, minus_last_synth M i pre [] c (by omega) rfl,
          List.getLast?_concat]
        simp only [Option.some.injEq, List.length_append, List.length_cons,
          List.length_nil]
        omega
      have hlastY : y.getLast? = some c := by
        rw [hydec]
        exact List.getLast?_concat pre
      have hdictY : dictLookup (M.crystals.getD (y.length % M.crystals.length) [])
          M.Phi (M.Eps c) = some last := by
        rw [hylen, hEq]
        exact hdict last hlast
      rw [fOp_val_ext M hminY hlastY hdictY hfc]
      congr 1
      rw [hydec, List.dropLast_concat, hxdec, hsufeq]
    · -- in place: f undoes the pointwise raise at position k
      have hydec : y = pre ++ c :: suf := by
        rw [hyv]
        conv_lhs => rw [hxdec]
        rw [← hlenpre]
        exact set_append_cons_self pre suf bk c
      have hylen : y.length = x.length := by rw [hyv]; simp
      have hsufnil : mpos M i suf (M.epsN i c) = [] := by
        rw [mpos_eq_nil_iff]
        omega
      have hminY : (positionsOfUnmatchedMinus M i y).getLast? = some k := by
        unfold positionsOfUnmatchedMinus
        rw [hydec, minus_last_synth M i pre suf c (by omega) hsufnil,
          List.getLast?_concat, hlenpre]
      have hneY : k ≠ y.length - 1 := by rw [hylen]; exact hne
      have hkY : y[k]? = some c := by
        rw [hydec, ← hlenpre]
        exact getElem?_append_cons_self pre suf c
      rw [fOp_val_inplace M hminY hneY hkY hfc]
      congr 1
      rw [hydec, ← hlenpre, set_append_cons_self pre suf c bk]
      exact hxdec.symm
  · intro y hy
    obtain ⟨k, hk, hcase⟩ := fOp_val_inv M hy
    obtain ⟨bk, hbk, hpreM, hsufM, hposM⟩ := minus_last_decomp M i x k hk
    have hklt : k < x.length := lt_length_of_getElem? hbk
    have hxdec := decomp_of_getElem? hbk
    set pre := x.take k with hpredef
    set suf := x.drop (k + 1) with hsufdef
    have hlenpre : pre.length = k := by
      rw [hpredef, List.length_take]
      exact Nat.min_eq_left (Nat.le_of_lt hklt)
    rcases hcase with ⟨hkl, last, newb, c, hlast, hdictX, hf, hyv⟩ |
      ⟨hne, bk2, c, hbk2, hf, hyv⟩
    · -- extension: e contracts the freshly appended entry
      have hlast' : x[k]? = some last := by
        rw [hkl, ← List.getLast?_eq_getElem?]
        exact hlast
      rw [hbk] at hlast'
      obtain rfl : bk = last := Option.some.inj hlast'
      have hsufnil : suf = [] := by
        rw [hsufdef]
        apply List.drop_eq_nil_of_le
        omega
      have hxdec2 : x = pre ++ [bk] := by rw [hxdec, hsufnil]
      have hdropx : x.dropLast = pre := by rw [hxdec2, List.dropLast_concat]
      have hydec : y = pre ++ c :: [newb] := by rw [hyv, hdropx]
      have hphiNewb : M.phiN i newb = M.epsN i bk :=
        hreg.cross newb bk (dictLookup_key hdictX)
      have hepsc : M.epsN i c = M.epsN i bk + 1 := hreg.eps_f bk c hf
      have hphib : M.phiN i bk = M.phiN i c + 1 := hreg.phi_f bk c hf
      have hpm1 : pmP M i 0 [newb] = M.phiN i newb := by simp [pmP]
      have hplusY : (positionsOfUnmatchedPlus M i y).head? = some pre.length := by
        unfold positionsOfUnmatchedPlus
        rw [hydec]
        exact plus_head_synth M i pre [newb] c (by omega) (by omega)
      have hylen : y.length = pre.length + 2 := by rw [hydec]; simp
      have hneY : pre.length ≠ y.length - 1 := by omega
      have hkY : y[pre.length]? = some c := by
        rw [hydec]
        exact getElem?_append_cons_self pre [newb] c
      have hec : M.eMap i c = some bk := hreg.ef bk c hf
      have h2Y : pre.length = y.length - 2 := by omega
      have hlastY : y.getLast? = some newb := by
        rw [hydec, show pre ++ c :: [newb] = (pre ++ [c]) ++ [newb] by simp]
        exact List.getLast?_concat _
      have hEqY : M.Eps bk = M.Phi newb := (dictLookup_key hdictX).symm
      rw [eOp_val_contract M hplusY hneY hkY hec h2Y hlastY hEqY]
      congr 1
      have hdropY : y.dropLast = pre ++ [c] := by
        rw [hydec, show pre ++ c :: [newb] = (pre ++ [c]) ++ [newb] by simp]
        exact List.dropLast_concat
      rw [hdropY, set_append_cons_self pre [] c bk]
      exact hxdec2.symm
    · -- in place: e undoes the pointwise lowering at position k
      rw [hbk] at hbk2
      obtain rfl : bk = bk2 := Option.some.inj hbk2
      have hepsc : M.epsN i c = M.epsN i bk + 1 := hreg.eps_f bk c hf
      have hphib : M.phiN i bk = M.phiN i c + 1 := hreg.phi_f bk c hf
      have hec : M.eMap i c = some bk := hreg.ef bk c hf
      have hydec : y = pre ++ c :: suf := by
        rw [hyv]
        conv_lhs => rw [hxdec]
        rw [← hlenpre]
        exact set_append_cons_self pre suf bk c
      have hylen : y.length = x.length := by rw [hyv]; simp
      have hpmsuf : pmP M i 0 suf ≤ M.epsN i bk := (mpos_eq_nil_iff M i suf _).mp hsufM
      have hplusY : (positionsOfUnmatchedPlus M i y).head? = some k := by
        unfold positionsOfUnmatchedPlus
        rw [hydec]
        have hsynth := plus_head_synth M i pre suf c (by omega) (by omega)
        rw [hlenpre] at hsynth
        exact hsynth
      have hneY : k ≠ y.length - 1 := by rw [hylen]; exact hne
      have hkY : y[k]? = some c := by
        rw [hydec, ← hlenpre]
        exact getElem?_append_cons_self pre suf c
      have hguard : ∀ last', k = y.length - 2 → y.getLast? = some last' →
          M.Eps bk ≠ M.Phi last' := by
        intro last' h2 hlast'
        have hk2 : k < x.length - 1 := by omega
        have hgl : y.getLast? = x.getLast? := by
          rw [hyv]
          exact getLast?_set_of_lt hk2
        rw [hgl] at hlast'
        have hkx2 : k = x.length - 2 := by omega
        have hx2 : x[x.length - 2]? = some bk := by
          rw [← hkx2]
          exact hbk
        exact hred bk last' hx2 hlast' (by omega)
      rw [eOp_val_inplace M hplusY hneY hkY hec hguard]
      congr 1
      rw [hydec, ← hlenpre, set_append_cons_self pre suf c bk]
      exact hxdec.symm

theorem a21_regular_two : RegularColor A21 2 :=
  ⟨by decide, by decide, by decide, by decide, by decide, by decide, by decide⟩

theorem c5_witness :
    fOp A21 2 [B11.b2, B11.b2] = PyRes.val [B11.b2, B11.b3, B11.b1] :=
  (c5_e_f_partial_inverses A21 2 [B11.b2, B11.b3, B11.b1] a21_regular_two
      (by decide) (by decide)).1 [B11.b2, B11.b2] (by decide)

/-! C8: round-robin alignment invariant -/

theorem getD_mem_of_mem {ls : List (List α)} {idx : Nat} {b : α}
    (h : b ∈ ls.getD idx []) : ls.getD idx [] ∈ ls := by
  rcases hE : ls[idx]? with _ | C
  · rw [List.getD_eq_getElem?_getD, hE] at h
    simp at h
  · rw [List.getD_eq_getElem?_getD, hE]
    exact List.getElem?_mem hE

theorem aligned_generator (M : KPModel α W) [DecidableEq W] {w : W} {g : List α}
    (hgen : initModuleGenerators M w = some [g]) : Aligned M g := by
  unfold initModuleGenerators at hgen
  split at hgen
  · exact absurd hgen (by simp)
  · rename_i b hb
    have hg : g = [b] := by
      have := Option.some.inj hgen
      simp at this
      exact this.symm
    subst hg
    intro p a hpa
    rcases p with _ | p
    · simp at hpa
      subst hpa
      rw [Nat.zero_mod]
      exact dictLookup_mem hb
    · simp at hpa

theorem aligned_eOp (M : KPModel α W) [DecidableEq W] {i : Nat} {x y : List α}
    (hce : ∀ j b c C, C ∈ M.crystals → b ∈ C → M.eMap j b = some c → c ∈ C)
    (hx : Aligned M x) (h : eOp M i x = .val y) : Aligned M y := by
  obtain ⟨k, bk, c, hk, hne, hbk, he, hcase⟩ := eOp_val_inv M h
  have hklt := lt_length_of_getElem? hbk
  have hbkmem : bk ∈ M.crystals.getD (k % M.crystals.length) [] := hx k bk hbk
  have hcmem : c ∈ M.crystals.getD (k % M.crystals.length) [] :=
    hce i bk c _ (getD_mem_of_mem hbkmem) hbkmem he
  rcases hcase with ⟨last, hlast, h2, hEq, hyv⟩ | ⟨hnc, hyv⟩
  · subst hyv
    intro p a hpa
    by_cases hp : p = k
    · subst hp
      rw [List.getElem?_set_self (by simp; omega)] at hpa
      rw [← Option.some.inj hpa]
      exact hcmem
    · rw [List.getElem?_set_ne (fun hcon => hp hcon.symm)] at hpa
      rw [List.getElem?_dropLast] at hpa
      split at hpa
      · exact hx p a hpa
      · exact absurd hpa (by simp)
  · subst hyv
    intro p a hpa
    by_cases hp : p = k
    · subst hp
      rw [List.getElem?_set_self hklt] at hpa
      rw [← Option.some.inj hpa]
      exact hcmem
    · rw [List.getElem?_set_ne (fun hcon => hp hcon.symm)] at hpa
      exact hx p a hpa

theorem aligned_fOp (M : KPModel α W) [DecidableEq W] {i : Nat} {x y : List α}
    (hcf : ∀ j b c C, C ∈ M.crystals → b ∈ C → M.fMap j b = some c → c ∈ C)
    (hx : Aligned M x) (h : fOp M i x = .val y) : Aligned M y := by
  obtain ⟨k, hk, hcase⟩ := fOp_val_inv M h
  rcases hcase with ⟨hkl, last, newb, c, hlast, hdictX, hf, hyv⟩ |
    ⟨hne, bk, c, hbk, hf, hyv⟩
  · subst hyv
    have hxne : x ≠ [] := by
      intro h0; rw [h0] at hlast; simp at hlast
    have hxpos : 1 ≤ x.length := List.length_pos.mpr hxne
    have hlastE : x[x.length - 1]? = some last := by
      rw [← List.getLast?_eq_getElem?]; exact hlast
    have hlastmem : last ∈ M.crystals.getD ((x.length - 1) % M.crystals.length) [] :=
      hx (x.length - 1) last hlastE
    have hcmem : c ∈ M.crystals.getD ((x.length - 1) % M.crystals.length) [] :=
      hcf i last c _ (getD_mem_of_mem hlastmem) hlastmem hf
    intro p a hpa
    by_cases hp1 : p < x.length - 1
    · rw [List.getElem?_append_left (by simp; omega)] at hpa
      rw [List.getElem?_dropLast, if_pos hp1] at hpa
      exact hx p a hpa
    · rw [List.getElem?_append_right (by simp; omega)] at hpa
      have hlenD : x.dropLast.length = x.length - 1 := by simp
      by_cases hp2 : p = x.length - 1
      · rw [hlenD, hp2, Nat.sub_self] at hpa
        simp at hpa
        rw [← hpa, hp2]
        exact hcmem
      · by_cases hp3 : p = x.length
        · rw [hlenD, hp3, show x.length - (x.length - 1) = 1 by omega] at hpa
          simp at hpa
          rw [← hpa, hp3]
          exact dictLookup_mem hdictX
        · rw [hlenD, show p - (x.length - 1) = (p - (x.length + 1)) + 2 by omega] at hpa
          simp at hpa
  · subst hyv
    have hklt := lt_length_of_getElem? hbk
    have hbkmem : bk ∈ M.crystals.getD (k % M.crystals.length) [] := hx k bk hbk
    have hcmem : c ∈ M.crystals.getD (k % M.crystals.length) [] :=
      hcf i bk c _ (getD_mem_of_mem hbkmem) hbkmem hf
    intro p a hpa
    by_cases hp : p = k
    · subst hp
      rw [List.getElem?_set_self hklt] at hpa
      rw [← Option.some.inj hpa]
      exact hcmem
    · rw [List.getElem?_set_ne (fun hcon => hp hcon.symm)] at hpa
      exact hx p a hpa

/-- C8: every element reachable from the module generator keeps the
round-robin alignment: the entry at position `p` is an element of
`crystals[p % cycleLength]`.  The closure hypotheses say the pointwise crystal
operators of the consumed factor crystals stay inside their crystal. -/
theorem c8_round_robin_alignment (M : KPModel α W) [DecidableEq W] (w : W)
    (g x : List α)
    (hce : ∀ j b c C, C ∈ M.crystals → b ∈ C → M.eMap j b = some c → c ∈ C)
    (hcf : ∀ j b c C, C ∈ M.crystals → b ∈ C → M.fMap j b = some c → c ∈ C)
    (hgen : initModuleGenerators M w = some [g])
    (hreach : Reachable M g x) : Aligned M x := by
  induction hreach with
  | refl => exact aligned_generator M hgen
  | estep i hr he ih => exact aligned_eOp M hce ih he
  | fstep i hr hf ih => exact aligned_fOp M hcf ih hf

theorem a21_mem_crystal (C : List B11) (hC : C ∈ A21.crystals) (c : B11) : c ∈ C := by
  have hCeq : C = [B11.b1, B11.b2, B11.b3] := by
    have : A21.crystals = [[B11.b1, B11.b2, B11.b3]] := rfl
    rw [this] at hC
    simpa using hC
  subst hCeq
  cases c <;> simp

theorem c8_witness : Aligned A21 [B11.b1, B11.b2] :=
  c8_round_robin_alignment A21 (1, 0, 0) [B11.b3] [B11.b1, B11.b2]
    (fun _ _ c C hC _ _ => a21_mem_crystal C hC c)
    (fun _ _ c C hC _ _ => a21_mem_crystal C hC c)
    (by decide)
    (Reachable.fstep 0 Reachable.refl (by decide))

/-! C9: termination of the phi loop -/

theorem minusExcess_append (M : KPModel α W) (i : Nat) (xs ys : List α) (h : Nat) :
    minusExcess M i (xs ++ ys) h =
      minusExcess M i xs h + minusExcess M i ys (mexit M i xs h) := by
  induction xs generalizing h with
  | nil => simp [minusExcess, mexit]
  | cons b bs ih => simp [minusExcess, mexit, ih, Nat.add_assoc]

theorem minusExcess_eq_zero_iff (M : KPModel α W) (i : Nat) (bs : List α) (h : Nat) :
    minusExcess M i bs h = 0 ↔ pmP M i 0 bs ≤ h := by
  induction bs generalizing h with
  | nil => simp [minusExcess, pmP]
  | cons b bs ih =>
    simp only [minusExcess, pmP]
    constructor
    · intro hz
      have h1 : M.phiN i b - h = 0 := by omega
      have h2 : minusExcess M i bs (h - M.phiN i b + M.epsN i b) = 0 := by omega
      have h3 := (ih _).mp h2
      omega
    · intro hle
      have h1 : pmP M i 0 bs ≤ h - M.phiN i b + M.epsN i b := by omega
      have h2 := (ih _).mpr h1
      omega

theorem minusExcess_split (M : KPModel α W) (i : Nat) (pre suf : List α) (b : α)
    (h : Nat) :
    minusExcess M i (pre ++ b :: suf) h =
      minusExcess M i pre h + ((M.phiN i b - mexit M i pre h) +
        minusExcess M i suf (mexit M i pre h - M.phiN i b + M.epsN i b)) := by
  rw [minusExcess_append]
  simp only [minusExcess]

/-- Every application of `f` that returns a new sequence removes exactly one
unmatched minus sign (the one it acts on): the termination measure of the
`phi` loop decreases by one per iteration. -/
theorem f_step_excess (M : KPModel α W) [DecidableEq W] {i : Nat} {x y : List α}
    (hreg : RegularColor M i) (h : fOp M i x = .val y) :
    minusExcess M i y 0 + 1 = minusExcess M i x 0 := by
  obtain ⟨k, hk, hcase⟩ := fOp_val_inv M h
  obtain ⟨bk, hbk, hpreM, hsufM, hposM⟩ := minus_last_decomp M i x k hk
  have hklt := lt_length_of_getElem? hbk
  have hxdec := decomp_of_getElem? hbk
  set pre := x.take k with hpredef
  set suf := x.drop (k + 1) with hsufdef
  have hlenpre : pre.length = k := by
    rw [hpredef, List.length_take]
    exact Nat.min_eq_left (Nat.le_of_lt hklt)
  have hpmsuf : pmP M i 0 suf ≤ M.epsN i bk := (mpos_eq_nil_iff M i suf _).mp hsufM
  rcases hcase with ⟨hkl, last, newb, c, hlast, hdictX, hf, hyv⟩ |
    ⟨hne, bk2, c, hbk2, hf, hyv⟩
  · -- extension branch
    have hlast' : x[k]? = some last := by
      rw [hkl, ← List.getLast?_eq_getElem?]
      exact hlast
    rw [hbk] at hlast'
    obtain rfl : bk = last := Option.some.inj hlast'
    have hphi : M.phiN i bk = M.phiN i c + 1 := hreg.phi_f bk c hf
    have heps : M.epsN i c = M.epsN i bk + 1 := hreg.eps_f bk c hf
    have hnewb : M.phiN i newb = M.epsN i bk :=
      hreg.cross newb bk (dictLookup_key hdictX)
    have hsufnil : suf = [] := by
      rw [hsufdef]
      exact List.drop_eq_nil_of_le (by omega)
    have hxdec2 : x = pre ++ [bk] := by rw [hxdec, hsufnil]
    have hdropx : x.dropLast = pre := by rw [hxdec2, List.dropLast_concat]
    have hydec : y = pre ++ c :: [newb] := by rw [hyv, hdropx]
    conv_lhs => rw [hydec]
    conv_rhs => rw [hxdec2]
    rw [minusExcess_split M i pre [newb] c 0, minusExcess_split M i pre [] bk 0]
    simp only [minusExcess]
    omega
  · -- in-place branch
    rw [hbk] at hbk2
    obtain rfl : bk = bk2 := Option.some.inj hbk2
    have hphi : M.phiN i bk = M.phiN i c + 1 := hreg.phi_f bk c hf
    have heps : M.epsN i c = M.epsN i bk + 1 := hreg.eps_f bk c hf
    have hydec : y = pre ++ c :: suf := by
      rw [hyv]
      conv_lhs => rw [hxdec]
      rw [← hlenpre]
      exact set_append_cons_self pre suf bk c
    conv_lhs => rw [hydec]
    conv_rhs => rw [hxdec]
    rw [minusExcess_split M i pre suf c 0, minusExcess_split M i pre suf bk 0]
    have e1 : minusExcess M i suf
        (mexit M i pre 0 - M.phiN i bk + M.epsN i bk) = 0 :=
      (minusExcess_eq_zero_iff M i suf _).mpr (by omega)
    have e2 : minusExcess M i suf
        (mexit M i pre 0 - M.phiN i c + M.epsN i c) = 0 :=
      (minusExcess_eq_zero_iff M i suf _).mpr (by omega)
    rw [e1, e2]
    omega

/-- Whenever the unmatched-minus list is nonempty, `f` produces a new sequence:
the pointwise lowering at the located factor is defined by regularity, and the
`Phi()` lookup in the matching crystal of the cycle succeeds by the
perfectness guarantee. -/
theorem f_total_of (M : KPModel α W) [DecidableEq W] (i : Nat) (x : List α)
    (hreg : RegularColor M i) (hcne : M.crystals ≠ [])
    (hlook : ∀ n, n < M.crystals.length → ∀ b,
      (dictLookup (M.crystals.getD n []) M.Phi (M.Eps b)).isSome)
    (hne : positionsOfUnmatchedMinus M i x ≠ []) :
    ∃ y, fOp M i x = .val y := by
  obtain ⟨k, hk⟩ : ∃ k, (positionsOfUnmatchedMinus M i x).getLast? = some k := by
    rcases hg : (positionsOfUnmatchedMinus M i x).getLast? with _ | k
    · rw [List.getLast?_eq_none_iff] at hg
      exact absurd hg hne
    · exact ⟨k, rfl⟩
  obtain ⟨bk, hbk, hpreM, hsufM, hposM⟩ := minus_last_decomp M i x k hk
  have hklt := lt_length_of_getElem? hbk
  have hphiPos : 0 < M.phiN i bk := by omega
  have hfdef := hreg.f_def bk hphiPos
  rcases hfc : M.fMap i bk with _ | c
  · rw [hfc] at hfdef
    simp at hfdef
  · by_cases hkl : k = x.length - 1
    · have hlast : x.getLast? = some bk := by
        rw [List.getLast?_eq_getElem?, ← hkl]
        exact hbk
      have hidx : x.length % M.crystals.length < M.crystals.length :=
        Nat.mod_lt _ (List.length_pos.mpr hcne)
      have hls := hlook _ hidx bk
      rcases hlk : dictLookup (M.crystals.getD (x.length % M.crystals.length) [])
          M.Phi (M.Eps bk) with _ | newb
      · rw [hlk] at hls
        simp at hls
      · exact ⟨x.dropLast ++ [c, newb],
          fOp_val_ext M (by rw [← hkl]; exact hk) hlast hlk hfc⟩
    · exact ⟨x.set k c, fOp_val_inplace M hk hkl hbk hfc⟩

theorem phiFuel_excess_of (M : KPModel α W) [DecidableEq W] (i : Nat)
    (hreg : RegularColor M i) (hcne : M.crystals ≠ [])
    (hlook : ∀ n, n < M.crystals.length → ∀ b,
      (dictLookup (M.crystals.getD n []) M.Phi (M.Eps b)).isSome) :
    ∀ (n : Nat) (x : List α), minusExcess M i x 0 = n →
      phiFuel M i (n + 1) x = some n := by
  intro n
  induction n with
  | zero =>
    intro x h
    have hpm : pmP M i 0 x ≤ 0 := (minusExcess_eq_zero_iff M i x 0).mp h
    have hnil : positionsOfUnmatchedMinus M i x = [] := by
      unfold positionsOfUnmatchedMinus
      exact (mpos_eq_nil_iff M i x 0).mpr hpm
    have hnone : fOp M i x = .noneRes := by
      unfold fOp
      have hg : (positionsOfUnmatchedMinus M i x).getLast? = none := by
        rw [hnil]; rfl
      simp only [hg]
    simp [phiFuel, hnone]
  | succ n ih =>
    intro x h
    have hne : positionsOfUnmatchedMinus M i x ≠ [] := by
      intro h0
      have hpm : pmP M i 0 x ≤ 0 := (mpos_eq_nil_iff M i x 0).mp h0
      have hz : minusExcess M i x 0 = 0 := (minusExcess_eq_zero_iff M i x 0).mpr hpm
      omega
    obtain ⟨y, hy⟩ := f_total_of M i x hreg hcne hlook hne
    have hstep := f_step_excess M hreg hy
    have hlen : minusExcess M i y 0 = n := by omega
    have hrec := ih y hlen
    simp only [phiFuel] at hrec ⊢
    simp only [hy]
    rw [hrec]
    rfl

/-- C9: the loop of `phi` terminates and returns a non-negative integer: for
every path element and color, iterating `f` reaches "no action" after finitely
many steps.  With fuel one more than the number of unmatched minus signs the
loop completes, returning exactly that count, since every `f` application
removes one unmatched minus.  The hypotheses are the standing assumptions:
regular-crystal axioms of the factor crystals at color `i`, a nonempty cycle
of crystals, and the perfectness guarantee that every `Phi()` lookup used for
extension succeeds. -/
theorem c9_phi_terminates (M : KPModel α W) [DecidableEq W] (i : Nat) (x : List α)
    (hreg : RegularColor M i) (hcne : M.crystals ≠ [])
    (hlook : ∀ n, n < M.crystals.length → ∀ b,
      (dictLookup (M.crystals.getD n []) M.Phi (M.Eps b)).isSome) :
    phiFuel M i (minusExcess M i x 0 + 1) x = some (minusExcess M i x 0) :=
  phiFuel_excess_of M i hreg hcne hlook _ x rfl

theorem c9_witness :
    phiFuel A21 2 (minusExcess A21 2 [B11.b2, B11.b2] 0 + 1) [B11.b2, B11.b2] =
      some (minusExcess A21 2 [B11.b2, B11.b2] 0) :=
  c9_phi_terminates A21 2 [B11.b2, B11.b2] a21_regular_two (by decide)
    (fun n hn b => by
      have hl : A21.crystals.length = 1 := rfl
      have hn0 : n = 0 := by omega
      subst hn0
      cases b <;> decide)
